import Mathlib

/-!
# Verification of the health-dashboard data pipeline

Shallow embedding of the pipeline's components (`data_loader.py`,
`data_cleaner.py`, `data_analysis.py`, `data_storage.py`) and proofs of the
spec's testable properties.

Modelling conventions:
* A pandas `DataFrame` is a `Table`: a header of column names plus a list of
  rows, each row one `Cell` per column (the data model's equal-length
  invariant is carried as a hypothesis where a proof needs it).
* Numeric cells hold rationals (`ℚ`), the exact-arithmetic model of the
  floating-point values; `NaN`/missing is the distinguished `Cell.missing`.
* A statistic that pandas reports as `NaN` (e.g. the mean of an all-missing
  column) is modelled as `none`.
* File system and CSV parser are oracles supplied to the loader; the SQLite
  store is a name-indexed map of tables.
-/

namespace HealthDash

/-- One cell of a table: a numeric value, a textual value, or the missing
marker (pandas `NaN`). -/
inductive Cell where
  | num (q : ℚ)
  | text (s : String)
  | missing
deriving DecidableEq, Repr

/-- `true` on textual cells only. -/
def Cell.isText : Cell → Bool
  | Cell.text _ => true
  | _ => false

/-- An in-memory table: ordered column names and a list of rows (each row
lists one cell per column, in header order). -/
structure Table where
  header : List String
  rows : List (List Cell)
deriving DecidableEq, Repr

/-- The table `pd.DataFrame()`: zero rows, zero columns. -/
def Table.emptyT : Table := ⟨[], []⟩

/-- `df.empty`: true when either axis has length zero. -/
def Table.isEmptyT (t : Table) : Bool := t.header.isEmpty || t.rows.isEmpty

/-- `str(cell)` as produced by `Series.astype(str)`: text passes through,
numbers print, `NaN` prints as `"nan"`.  (The exact print format of numbers
is irrelevant to every claim below; only textual cells are compared.) -/
def cellToStr : Cell → String
  | Cell.num q => toString q
  | Cell.text s => s
  | Cell.missing => "nan"

/-- The `value` argument of `filter_data` (`str/int` per its docstring). -/
inductive PyValue where
  | str (s : String)
  | numv (q : ℚ)
deriving DecidableEq, Repr

/-- The cell of row `r` that sits in column `column` of a table with the
given header (`Cell.missing` when out of range, which cannot happen for
well-formed rows). -/
def rowCell (header : List String) (column : String) (r : List Cell) : Cell :=
  r.getD (header.indexOf column) Cell.missing

/-- `data_analysis.filter_data`.  Empty frame or absent column give the
empty frame; a textual value is matched case-insensitively against the
stringified cells; a numeric value is matched exactly. -/
def filter_data (t : Table) (column : String) (value : PyValue) : Table :=
  if t.isEmptyT then Table.emptyT
  else if t.header.contains column then
    match value with
    | PyValue.str v =>
        ⟨t.header,
         t.rows.filter (fun r =>
           (cellToStr (rowCell t.header column r)).toLower == v.toLower)⟩
    | PyValue.numv q =>
        ⟨t.header, t.rows.filter (fun r => rowCell t.header column r == Cell.num q)⟩
  else Table.emptyT

/-- The cells of column `column` of `t` (`df[column]`). -/
def colCells (t : Table) (column : String) : List Cell :=
  t.rows.map (rowCell t.header column)

/-- The non-missing numeric values of a column, in order. -/
def numValues (col : List Cell) : List ℚ :=
  col.filterMap (fun c => match c with | Cell.num q => some q | _ => none)

/-- `Series.mean` over a list of present values: sum divided by count. -/
def listMean (l : List ℚ) : ℚ := l.sum / l.length

/-- `Series.min` over the present values (`none` when there are none). -/
def listMin : List ℚ → Option ℚ
  | [] => none
  | q :: qs =>
    match listMin qs with
    | none => some q
    | some m => some (min q m)

/-- `Series.max` over the present values (`none` when there are none). -/
def listMax : List ℚ → Option ℚ
  | [] => none
  | q :: qs =>
    match listMax qs with
    | none => some q
    | some m => some (max q m)

/-- The `{'mean', 'min', 'max', 'count'}` dictionary of `calculate_stats`.
`none` models the `NaN` a reduction of zero values yields. -/
structure Stats where
  mean : Option ℚ
  min : Option ℚ
  max : Option ℚ
  count : ℕ
deriving DecidableEq, Repr

/-- `data_analysis.calculate_stats`.  `none` for an empty frame or absent
column.  A column holding a textual cell has object dtype and
`Series.mean` raises `TypeError` on it; the `except` branch turns that
into `None` as well.  Otherwise the four reductions skip missing values. -/
def calculate_stats (t : Table) (column : String) : Option Stats :=
  if t.isEmptyT then none
  else if t.header.contains column then
    let col := colCells t column
    if col.any Cell.isText then none
    else
      let vs := numValues col
      some { mean := if vs.isEmpty then none else some (listMean vs),
             min := listMin vs, max := listMax vs, count := vs.length }
  else none

theorem listMin_eq_none_iff {l : List ℚ} : listMin l = none ↔ l = [] := by
  cases l with
  | nil => simp [listMin]
  | cons q qs =>
    simp only [listMin]
    constructor
    · intro h
      rcases hm : listMin qs with _ | m <;> rw [hm] at h <;> cases h
    · intro h
      cases h

theorem listMin_le {l : List ℚ} {v : ℚ} (hv : v ∈ l) :
    ∃ m, listMin l = some m ∧ m ≤ v := by
  induction l with
  | nil => cases hv
  | cons q qs ih =>
    rcases hm : listMin qs with _ | m
    · have : qs = [] := listMin_eq_none_iff.mp hm
      subst this
      rcases List.mem_cons.mp hv with h | h
      · exact ⟨q, by simp [listMin, hm], le_of_eq (congrArg id h).symm⟩
      · cases h
    · rcases List.mem_cons.mp hv with h | h
      · exact ⟨min q m, by simp [listMin, hm], h ▸ min_le_left q m⟩
      · obtain ⟨m2, hm2, hle⟩ := ih h
        rw [hm] at hm2
        cases hm2
        exact ⟨min q m, by simp [listMin, hm], le_trans (min_le_right q m) hle⟩

theorem listMax_eq_none_iff {l : List ℚ} : listMax l = none ↔ l = [] := by
  cases l with
  | nil => simp [listMax]
  | cons q qs =>
    simp only [listMax]
    constructor
    · intro h
      rcases hm : listMax qs with _ | m <;> rw [hm] at h <;> cases h
    · intro h
      cases h

theorem listMax_ge {l : List ℚ} {v : ℚ} (hv : v ∈ l) :
    ∃ M, listMax l = some M ∧ v ≤ M := by
  induction l with
  | nil => cases hv
  | cons q qs ih =>
    rcases hm : listMax qs with _ | m
    · have : qs = [] := listMax_eq_none_iff.mp hm
      subst this
      rcases List.mem_cons.mp hv with h | h
      · exact ⟨q, by simp [listMax, hm], le_of_eq (congrArg id h)⟩
      · cases h
    · rcases List.mem_cons.mp hv with h | h
      · exact ⟨max q m, by simp [listMax, hm], h ▸ le_max_left q m⟩
      · obtain ⟨m2, hm2, hle⟩ := ih h
        rw [hm] at hm2
        cases hm2
        exact ⟨max q m, by simp [listMax, hm], le_trans hle (le_max_right q m)⟩

/-! ## Cleaner: column-name normalization

`clean_df.columns.str.replace(r'\s*\[.*?\]\s*', '', regex=True).str.strip()`
is embedded character by character.  A match of the pattern at a position is:
a maximal run of whitespace, `[`, the shortest run of characters up to a `]`
(`.` does not cross a newline), `]`, a maximal run of whitespace.  `re.sub`
scans left to right, removes each non-overlapping match and resumes after
it. -/

/-- Python's `\s` / `str.strip` whitespace, ASCII range. -/
def isSpaceChar (c : Char) : Bool :=
  c = ' ' || c = '\t' || c = '\n' || c = '\r' || c = Char.ofNat 11 || c = Char.ofNat 12

/-- Scan for the `]` closing a bracket: `some rest` when a `]` occurs before
any newline (`rest` is what follows it), `none` otherwise (`.`​`*?` cannot
cross a newline, so the match attempt fails). -/
def findClose : List Char → Option (List Char)
  | [] => none
  | c :: r =>
    if c = ']' then some r
    else if c = '\n' then none
    else findClose r

/-- Attempt to match `\s*\[.*?\]\s*` at the head of `l`.  On success,
returns the remainder of `l` after the match. -/
def tryMatch (l : List Char) : Option (List Char) :=
  match l.dropWhile isSpaceChar with
  | c :: r2 =>
    if c = '[' then
      match findClose r2 with
      | some r3 => some (r3.dropWhile isSpaceChar)
      | none => none
    else none
  | [] => none

theorem findClose_suffix {r r3 : List Char} (h : findClose r = some r3) :
    r3 <:+ r ∧ r3.length < r.length := by
  induction r with
  | nil => simp [findClose] at h
  | cons c cs ih =>
    by_cases hc : c = ']'
    · simp [findClose, hc] at h
      subst h
      exact ⟨⟨[c], rfl⟩, by simp⟩
    · by_cases hn : c = '\n'
      · simp [findClose, hc, hn] at h
      · simp [findClose, hc, hn] at h
        obtain ⟨hs, hl⟩ := ih h
        exact ⟨hs.trans ⟨[c], rfl⟩, by simpa using Nat.lt_succ_of_lt hl⟩

theorem tryMatch_suffix {l rest : List Char} (h : tryMatch l = some rest) :
    rest <:+ l ∧ rest.length < l.length := by
  unfold tryMatch at h
  rcases hdw : l.dropWhile isSpaceChar with _ | ⟨c, r2⟩
  · rw [hdw] at h; simp at h
  · rw [hdw] at h
    simp only [] at h
    by_cases hc : c = '['
    · rw [if_pos hc] at h
      subst hc
      rcases hfc : findClose r2 with _ | r3
      · rw [hfc] at h; simp at h
      · rw [hfc] at h
        simp only [Option.some.injEq] at h
        subst h
        obtain ⟨hs3, hl3⟩ := findClose_suffix hfc
        have hsufdw : l.dropWhile isSpaceChar <:+ l := List.dropWhile_suffix _
        rw [hdw] at hsufdw
        have hs : r3.dropWhile isSpaceChar <:+ l := by
          refine ((List.dropWhile_suffix _).trans (hs3.trans ?_)).trans hsufdw
          exact ⟨['['], rfl⟩
        refine ⟨hs, ?_⟩
        have h1 : (r3.dropWhile isSpaceChar).length ≤ r3.length :=
          (List.dropWhile_suffix _).length_le
        have h2 : ('[' :: r2).length ≤ l.length := hsufdw.length_le
        simp only [List.length_cons] at h2
        omega
    · rw [if_neg hc] at h; cases h

/-- Fuel-driven body of the global substitution: at each position, remove a
match and resume after it, or keep the character and advance one.  One unit
of fuel is spent per step; `l.length` units always suffice. -/
def subBrF : ℕ → List Char → List Char
  | _, [] => []
  | 0, l => l
  | fuel + 1, c :: cs =>
    match tryMatch (c :: cs) with
    | some rest => subBrF fuel rest
    | none => c :: subBrF fuel cs

theorem subBrF_fuel_irrel :
    ∀ (b : ℕ) (l : List Char) (n m : ℕ), l.length ≤ b → l.length ≤ n →
      l.length ≤ m → subBrF n l = subBrF m l := by
  intro b
  induction b with
  | zero =>
    intro l n m hb _ _
    have : l = [] := List.length_eq_zero.mp (Nat.le_zero.mp hb)
    subst this
    cases n <;> cases m <;> rfl
  | succ B ih =>
    intro l n m hb hn hm
    cases l with
    | nil => cases n <;> cases m <;> rfl
    | cons c cs =>
      simp only [List.length_cons] at hb hn hm
      cases n with
      | zero => omega
      | succ k =>
        cases m with
        | zero => omega
        | succ j =>
          rcases htm : tryMatch (c :: cs) with _ | rest
          · simp only [subBrF, htm]
            exact congrArg (c :: ·) (ih cs k j (by omega) (by omega) (by omega))
          · have hlen := (tryMatch_suffix htm).2
            simp only [List.length_cons] at hlen
            simp only [subBrF, htm]
            exact ih rest k j (by omega) (by omega) (by omega)

/-- `re.sub(r'\s*\[.*?\]\s*', '', l)`: the global substitution. -/
def subBr (l : List Char) : List Char := subBrF l.length l

theorem subBr_nil : subBr [] = [] := rfl

theorem tryMatch_nil : tryMatch [] = none := rfl

theorem subBr_eq_of_match {l rest : List Char} (h : tryMatch l = some rest) :
    subBr l = subBr rest := by
  cases l with
  | nil => rw [tryMatch_nil] at h; cases h
  | cons c cs =>
    have hlen := (tryMatch_suffix h).2
    simp only [List.length_cons] at hlen
    show subBrF (cs.length + 1) (c :: cs) = subBr rest
    simp only [subBrF, h]
    exact subBrF_fuel_irrel cs.length rest cs.length rest.length
      (by omega) (by omega) (le_refl _)

theorem subBr_cons_of_none {c : Char} {cs : List Char}
    (h : tryMatch (c :: cs) = none) : subBr (c :: cs) = c :: subBr cs := by
  show subBrF (cs.length + 1) (c :: cs) = c :: subBr cs
  simp only [subBrF, h]
  rfl

/-- `str.strip()`: remove leading and trailing whitespace. -/
def trimChars (l : List Char) : List Char :=
  (l.dropWhile isSpaceChar).rdropWhile isSpaceChar

/-- One column name as cleaned by
`.str.replace(r'\s*\[.*?\]\s*', '', regex=True).str.strip()`. -/
def normalizeName (s : String) : String := ⟨trimChars (subBr s.data)⟩

/-! ### Properties of the name normalization -/

theorem findClose_mem {r r3 : List Char} (h : findClose r = some r3) : ']' ∈ r := by
  induction r with
  | nil => simp [findClose] at h
  | cons c cs ih =>
    by_cases hc : c = ']'
    · simp [hc]
    · by_cases hn : c = '\n'
      · simp [findClose, hc, hn] at h
      · simp only [findClose, if_neg hc, if_neg hn] at h
        exact List.mem_cons_of_mem _ (ih h)

theorem findClose_none_no_close {r : List Char} (h : findClose r = none)
    (hn : '\n' ∉ r) : ']' ∉ r := by
  induction r with
  | nil => simp
  | cons c cs ih =>
    simp only [List.mem_cons, not_or] at hn ⊢
    by_cases hc : c = ']'
    · simp [findClose, hc] at h
    · by_cases hnl : c = '\n'
      · exact absurd hnl.symm hn.1
      · simp only [findClose, if_neg hc, if_neg hnl] at h
        exact ⟨fun hh => hc hh.symm, ih h hn.2⟩

/-- Element preservation: the substitution only ever keeps characters of
its input. -/
theorem mem_subBr_aux :
    ∀ (n : ℕ) (l : List Char) (x : Char), l.length ≤ n → x ∈ subBr l → x ∈ l := by
  intro n
  induction n with
  | zero =>
    intro l x hl hx
    have : l = [] := List.length_eq_zero.mp (Nat.le_zero.mp hl)
    subst this
    rwa [subBr_nil] at hx
  | succ k ih =>
    intro l x hl hx
    rcases htm : tryMatch l with _ | rest
    · cases l with
      | nil => rwa [subBr_nil] at hx
      | cons c cs =>
        rw [subBr_cons_of_none htm] at hx
        simp only [List.length_cons] at hl
        rcases List.mem_cons.mp hx with h | h
        · exact h ▸ List.mem_cons_self _ _
        · exact List.mem_cons_of_mem _ (ih cs x (by omega) h)
    · obtain ⟨hs, hlen⟩ := tryMatch_suffix htm
      rw [subBr_eq_of_match htm] at hx
      exact hs.subset (ih rest x (by omega) hx)

theorem mem_subBr {l : List Char} {x : Char} (hx : x ∈ subBr l) : x ∈ l :=
  mem_subBr_aux l.length l x (le_refl _) hx

/-- Every `[` of `l` comes after every `]`: then the pattern matches
nowhere in `l`. -/
def noBracketMatch (l : List Char) : Prop :=
  ∀ a b, l = a ++ '[' :: b → ']' ∉ b

theorem noBracketMatch_nil : noBracketMatch [] := by
  intro a b h
  exact absurd h (by simp)

theorem noBracketMatch_cons {c : Char} {cs : List Char} (hc : c ≠ '[')
    (h : noBracketMatch cs) : noBracketMatch (c :: cs) := by
  intro a b hab
  cases a with
  | nil =>
    simp only [List.nil_append, List.cons.injEq] at hab
    exact absurd hab.1 hc
  | cons a' as =>
    simp only [List.cons_append, List.cons.injEq] at hab
    exact h as b hab.2

theorem noBracketMatch_cons_of_not_close {c : Char} {cs : List Char}
    (hcs : ']' ∉ cs) (h : noBracketMatch cs) : noBracketMatch (c :: cs) := by
  intro a b hab
  cases a with
  | nil =>
    simp only [List.nil_append, List.cons.injEq] at hab
    exact hab.2 ▸ hcs
  | cons a' as =>
    simp only [List.cons_append, List.cons.injEq] at hab
    exact h as b hab.2

theorem noBracketMatch_of_no_open {l : List Char} (h : '[' ∉ l) :
    noBracketMatch l := by
  intro a b hab
  exact absurd (hab ▸ List.mem_append.mpr (Or.inr (List.mem_cons_self _ _))) h

/-- On a string with no matchable bracket pair, the match attempt fails at
the head. -/
theorem tryMatch_eq_none_of_nbm {l : List Char} (h : noBracketMatch l) :
    tryMatch l = none := by
  rcases htm : tryMatch l with _ | rest
  · rfl
  · exfalso
    unfold tryMatch at htm
    rcases hdw : l.dropWhile isSpaceChar with _ | ⟨c, r2⟩
    · rw [hdw] at htm; simp at htm
    · rw [hdw] at htm
      simp only [] at htm
      by_cases hc : c = '['
      · rw [if_pos hc] at htm
        subst hc
        rcases hfc : findClose r2 with _ | r3
        · rw [hfc] at htm; cases htm
        · have hsplit : l = l.takeWhile isSpaceChar ++ '[' :: r2 := by
            rw [← hdw, List.takeWhile_append_dropWhile]
          exact h _ _ hsplit (findClose_mem hfc)
      · rw [if_neg hc] at htm; cases htm

/-- On a string with no matchable bracket pair, the substitution is the
identity. -/
theorem subBr_eq_self_of_nbm {l : List Char} (h : noBracketMatch l) :
    subBr l = l := by
  induction l with
  | nil => exact subBr_nil
  | cons c cs ih =>
    have htail : noBracketMatch cs := by
      intro a b hab
      exact h (c :: a) b (by simp [hab])
    rw [subBr_cons_of_none (tryMatch_eq_none_of_nbm h), ih htail]

/-- After one pass of the substitution over a newline-free string, no
matchable bracket pair remains. -/
theorem noBracketMatch_subBr_aux :
    ∀ (n : ℕ) (l : List Char), l.length ≤ n → '\n' ∉ l →
      noBracketMatch (subBr l) := by
  intro n
  induction n with
  | zero =>
    intro l hl _
    have : l = [] := List.length_eq_zero.mp (Nat.le_zero.mp hl)
    subst this
    rw [subBr_nil]
    exact noBracketMatch_nil
  | succ k ih =>
    intro l hl hnl
    rcases htm : tryMatch l with _ | rest
    · cases l with
      | nil => rw [subBr_nil]; exact noBracketMatch_nil
      | cons c cs =>
        rw [subBr_cons_of_none htm]
        simp only [List.length_cons] at hl
        simp only [List.mem_cons, not_or] at hnl
        have ihcs := ih cs (by omega) hnl.2
        by_cases hc : c = '['
        · subst hc
          have hdw : List.dropWhile isSpaceChar ('[' :: cs) = '[' :: cs := by
            rw [List.dropWhile_cons, if_neg (by decide)]
          have hfc : findClose cs = none := by
            rcases hfc2 : findClose cs with _ | r3
            · rfl
            · exfalso
              have hsome : tryMatch ('[' :: cs) = some (r3.dropWhile isSpaceChar) := by
                unfold tryMatch
                rw [hdw]
                simp only [if_true, hfc2]
              rw [htm] at hsome
              cases hsome
          have hclose : ']' ∉ cs := findClose_none_no_close hfc hnl.2
          exact noBracketMatch_cons_of_not_close
            (fun hm => hclose (mem_subBr hm)) ihcs
        · exact noBracketMatch_cons hc ihcs
    · obtain ⟨hs, hlen⟩ := tryMatch_suffix htm
      rw [subBr_eq_of_match htm]
      exact ih rest (by omega) (fun hm => hnl (hs.subset hm))

theorem noBracketMatch_subBr {l : List Char} (h : '\n' ∉ l) :
    noBracketMatch (subBr l) :=
  noBracketMatch_subBr_aux l.length l (le_refl _) h

theorem noBracketMatch_of_between {l v : List Char} (h : noBracketMatch l)
    (hinf : v <:+: l) : noBracketMatch v := by
  obtain ⟨u, w, huw⟩ := hinf
  intro a b hab hbmem
  have hdecomp : l = (u ++ a) ++ '[' :: (b ++ w) := by
    rw [← huw, hab]
    simp
  exact h _ _ hdecomp (List.mem_append.mpr (Or.inl hbmem))

theorem trimChars_between (l : List Char) : trimChars l <:+: l := by
  obtain ⟨s, hs⟩ := List.rdropWhile_prefix isSpaceChar (l.dropWhile isSpaceChar)
  refine ⟨l.takeWhile isSpaceChar, s, ?_⟩
  show l.takeWhile isSpaceChar ++ trimChars l ++ s = l
  rw [List.append_assoc]
  unfold trimChars
  rw [hs, List.takeWhile_append_dropWhile]

theorem trimChars_idem (l : List Char) : trimChars (trimChars l) = trimChars l := by
  show trimChars ((l.dropWhile isSpaceChar).rdropWhile isSpaceChar) =
    (l.dropWhile isSpaceChar).rdropWhile isSpaceChar
  unfold trimChars
  have h1 : ((l.dropWhile isSpaceChar).rdropWhile isSpaceChar).dropWhile isSpaceChar =
      (l.dropWhile isSpaceChar).rdropWhile isSpaceChar := by
    rw [List.dropWhile_eq_self_iff]
    intro hl
    have hpre := List.rdropWhile_prefix isSpaceChar (l.dropWhile isSpaceChar)
    have hlen : 0 < (l.dropWhile isSpaceChar).length :=
      Nat.lt_of_lt_of_le hl hpre.length_le
    have hget := hpre.getElem (n := 0) hl
    simp only [List.get_eq_getElem, hget]
    have := List.dropWhile_get_zero_not isSpaceChar l hlen
    simpa using this
  rw [h1, List.rdropWhile_idempotent]

theorem normalizeName_idem {s : String} (h : '\n' ∉ s.data) :
    normalizeName (normalizeName s) = normalizeName s := by
  show (⟨trimChars (subBr (trimChars (subBr s.data)))⟩ : String) =
    ⟨trimChars (subBr s.data)⟩
  have hnbm : noBracketMatch (subBr s.data) := noBracketMatch_subBr h
  have h2 : noBracketMatch (trimChars (subBr s.data)) :=
    noBracketMatch_of_between hnbm (trimChars_between _)
  rw [subBr_eq_self_of_nbm h2, trimChars_idem]

theorem normalizeName_of_no_brackets {s : String} (h : '[' ∉ s.data) :
    normalizeName s = ⟨trimChars s.data⟩ := by
  show (⟨trimChars (subBr s.data)⟩ : String) = ⟨trimChars s.data⟩
  rw [subBr_eq_self_of_nbm (noBracketMatch_of_no_open h)]

/-! ## Cleaner: missing-value fill -/

/-- The cells of the column at position `j` (reading down the rows). -/
def colAt (rows : List (List Cell)) (j : ℕ) : List Cell :=
  rows.map (fun r => r.getD j Cell.missing)

/-- Numeric dtype inference (`select_dtypes(include=['number'])`): a column
read from data is numeric exactly when no cell is textual (an all-missing
column is a float column of `NaN`s, hence numeric). -/
def colIsNumericB (col : List Cell) : Bool := col.all (fun c => !c.isText)

/-- The fill value of the numeric pass: `mean_val` when it is defined,
`0` when the column is entirely missing (`pd.isna(mean_val)`). -/
def meanOrZero (col : List Cell) : ℚ :=
  let vs := numValues col
  if vs.isEmpty then 0 else listMean vs

/-- `fillna` step of the numeric pass on one cell of column `col`:
columns that are not numeric are untouched by this pass. -/
def fillNumericCell (col : List Cell) (c : Cell) : Cell :=
  if colIsNumericB col then
    match c with
    | Cell.missing => Cell.num (meanOrZero col)
    | c => c
  else c

/-- The numeric pass across one row: the cell at column position `j` is
filled from the statistics of column `j` of the original rows. -/
def fillRowNumeric (rows : List (List Cell)) : ℕ → List Cell → List Cell
  | _, [] => []
  | j, c :: cs => fillNumericCell (colAt rows j) c :: fillRowNumeric rows (j + 1) cs

/-- The catch-all `fillna("Unknown")` on one cell. -/
def fillUnknown : Cell → Cell
  | Cell.missing => Cell.text "Unknown"
  | c => c

/-- `data_cleaner.clean_health_data`: an empty frame is returned as is;
otherwise the column names are normalized, every missing cell of a numeric
column is filled with that column's mean (or `0` for an all-missing
column), and the remaining missing cells are filled with `"Unknown"`.
The source walks the numeric columns by name; the embedding walks them by
position, which agrees with it whenever the (normalized) column names are
distinct — the data model's uniqueness invariant. -/
def clean_health_data (t : Table) : Table :=
  if t.isEmptyT then t
  else
    let header2 := t.header.map normalizeName
    let rows1 := t.rows.map (fillRowNumeric t.rows 0)
    let rows2 := rows1.map (fun r => r.map fillUnknown)
    ⟨header2, rows2⟩

/-- The cell at row `i`, column `j` (row-major addressing). -/
def cellAt (t : Table) (i j : ℕ) : Cell :=
  (t.rows.getD i []).getD j Cell.missing

/-! ### Properties of the fill passes -/

theorem fillUnknown_ne_missing (c : Cell) : fillUnknown c ≠ Cell.missing := by
  cases c <;> simp [fillUnknown]

theorem fillUnknown_of_ne_missing {c : Cell} (h : c ≠ Cell.missing) :
    fillUnknown c = c := by
  cases c with
  | num q => rfl
  | text s => rfl
  | missing => exact absurd rfl h

theorem fillNumericCell_of_ne_missing {col : List Cell} {c : Cell}
    (h : c ≠ Cell.missing) : fillNumericCell col c = c := by
  unfold fillNumericCell
  cases c with
  | num q => split <;> rfl
  | text s => split <;> rfl
  | missing => exact absurd rfl h

theorem fillRowNumeric_getElem? (rows : List (List Cell)) :
    ∀ (r : List Cell) (j0 j : ℕ),
      (fillRowNumeric rows j0 r)[j]? =
        (r[j]?).map (fillNumericCell (colAt rows (j0 + j))) := by
  intro r
  induction r with
  | nil => intro j0 j; simp [fillRowNumeric]
  | cons c cs ih =>
    intro j0 j
    cases j with
    | zero => simp [fillRowNumeric]
    | succ k =>
      have hidx : j0 + (k + 1) = (j0 + 1) + k := by omega
      simp only [fillRowNumeric, List.getElem?_cons_succ, hidx]
      exact ih (j0 + 1) k

theorem fillRowNumeric_eq_self {rows : List (List Cell)} {r : List Cell}
    (h : ∀ c ∈ r, c ≠ Cell.missing) : ∀ j, fillRowNumeric rows j r = r := by
  induction r with
  | nil => intro j; rfl
  | cons c cs ih =>
    intro j
    rw [fillRowNumeric, fillNumericCell_of_ne_missing (h c (List.mem_cons_self _ _)),
      ih (fun x hx => h x (List.mem_cons_of_mem _ hx)) (j + 1)]

theorem map_fillUnknown_eq_self {r : List Cell}
    (h : ∀ c ∈ r, c ≠ Cell.missing) : r.map fillUnknown = r := by
  exact (List.map_congr_left (fun c hc => fillUnknown_of_ne_missing (h c hc))).trans
    (List.map_id' r)

/-! ### Structure of `clean_health_data` -/

theorem clean_of_empty {t : Table} (h : t.isEmptyT = true) :
    clean_health_data t = t := by
  unfold clean_health_data
  rw [if_pos h]

theorem clean_eq_of_nonempty {t : Table} (h : t.isEmptyT = false) :
    clean_health_data t =
      ⟨t.header.map normalizeName,
       (t.rows.map (fillRowNumeric t.rows 0)).map (fun r => r.map fillUnknown)⟩ := by
  unfold clean_health_data
  rw [if_neg (by simp [h])]

theorem clean_isEmptyT (t : Table) :
    (clean_health_data t).isEmptyT = t.isEmptyT := by
  cases he : t.isEmptyT with
  | true => rw [clean_of_empty he, he]
  | false =>
    rw [clean_eq_of_nonempty he]
    unfold Table.isEmptyT at he ⊢
    simpa using he

theorem clean_rows_no_missing {t : Table} (h : t.isEmptyT = false) :
    ∀ r ∈ (clean_health_data t).rows, ∀ c ∈ r, c ≠ Cell.missing := by
  intro r hr c hc
  rw [clean_eq_of_nonempty h] at hr
  simp only [List.mem_map] at hr
  obtain ⟨r1, -, hr1⟩ := hr
  subst hr1
  simp only [List.mem_map] at hc
  obtain ⟨c0, -, hc0⟩ := hc
  exact hc0 ▸ fillUnknown_ne_missing c0

/-- `clean_health_data` is the identity on a non-empty table that has no
missing cell and whose column names normalize to themselves. -/
theorem clean_eq_self {t : Table} (h : t.isEmptyT = false)
    (hnm : ∀ r ∈ t.rows, ∀ c ∈ r, c ≠ Cell.missing)
    (hn : ∀ name ∈ t.header, normalizeName name = name) :
    clean_health_data t = t := by
  obtain ⟨H, R⟩ := t
  rw [clean_eq_of_nonempty h]
  simp only [Table.mk.injEq]
  constructor
  · exact List.map_congr_left hn |>.trans (List.map_id' H)
  · rw [List.map_map]
    refine (List.map_congr_left ?_).trans (List.map_id' R)
    intro r hr
    show (fillRowNumeric R 0 r).map fillUnknown = r
    rw [fillRowNumeric_eq_self (hnm r hr) 0, map_fillUnknown_eq_self (hnm r hr)]

/-! ## Loader -/

/-- The loader's external collaborators: `os.path.exists` and
`pd.read_csv` (which either yields a frame or raises). -/
structure FileSystem where
  pathExists : String → Bool
  parseCSV : String → Except String Table

/-- `data_loader.load_csv_data`: a missing path raises
`FileNotFoundError` (modelled as `Except.error`); any parse failure is
reported and degraded to the empty frame. -/
def load_csv_data (fs : FileSystem) (filepath : String) : Except String Table :=
  if fs.pathExists filepath = false then
    Except.error ("The file " ++ filepath ++ " was not found.")
  else
    match fs.parseCSV filepath with
    | Except.ok df => Except.ok df
    | Except.error _ => Except.ok Table.emptyT

/-! ## Store -/

/-- The SQLite database: a map from table name to the stored table. -/
def Database := String → Option Table

/-- `data_storage.save_to_database`: `to_sql(..., if_exists='replace')`
writes the frame under `table_name`, fully replacing any previous table of
that name and touching no other. -/
def save_to_database (df : Table) (db : Database) (table_name : String) : Database :=
  fun n => if n = table_name then some df else db n

/-- `data_storage.fetch_data_from_db`: the stored table, or `None` (plus a
diagnostic) when no table of that name exists. -/
def fetch_data_from_db (db : Database) (table_name : String) : Option Table :=
  db table_name

/-! ## The claims -/

/-- C1, amended: `calculate_stats T C` returns no result iff `T` is empty,
or `C` is absent from `T`, or column `C` holds a textual value (its mean
computation fails and the defensive catch-all turns the failure into "no
result"); for every non-empty `T` containing `C` whose column holds no
textual value, a stats result is returned. -/
theorem claim_C1_amended (t : Table) (c : String) :
    calculate_stats t c = none ↔
      t.isEmptyT = true ∨ c ∉ t.header ∨
        (colCells t c).any Cell.isText = true := by
  by_cases he : t.isEmptyT = true
  · simp [calculate_stats, he]
  · by_cases hc : c ∈ t.header
    · have hcb : t.header.contains c = true := by simpa using hc
      cases ha : (colCells t c).any Cell.isText <;>
        simp [calculate_stats, he, hc, hcb, ha]
    · have hcb : t.header.contains c = false := by simpa using hc
      simp [calculate_stats, he, hc, hcb]

/-- C1 as frozen is false: this table is non-empty and contains column
`"A"`, yet `calculate_stats` returns no result, because the column is
textual (pandas raises computing its mean; the catch-all returns `None`).
-/
theorem claim_C1_counterexample :
    (Table.mk ["A"] [[Cell.text "x"]]).isEmptyT = false ∧
      (Table.mk ["A"] [[Cell.text "x"]]).header.contains "A" = true ∧
      calculate_stats (Table.mk ["A"] [[Cell.text "x"]]) "A" = none := by
  decide

/-- C7: whenever `calculate_stats T C` returns a result, `count` is the
number of non-missing values of column `C` (not the row count), `mean` is
the sum of those values divided by their count (whenever at least one
exists), and `min`/`max` bound every one of those values from below/above.
-/
theorem claim_C7 (t : Table) (c : String) (s : Stats)
    (h : calculate_stats t c = some s) :
    s.count = (numValues (colCells t c)).length ∧
      (numValues (colCells t c) ≠ [] →
        s.mean = some ((numValues (colCells t c)).sum /
          ((numValues (colCells t c)).length : ℚ))) ∧
      (∀ v ∈ numValues (colCells t c), ∃ m, s.min = some m ∧ m ≤ v) ∧
      (∀ v ∈ numValues (colCells t c), ∃ M, s.max = some M ∧ v ≤ M) := by
  simp only [calculate_stats] at h
  split at h
  · cases h
  split at h
  · split at h
    · cases h
    · simp only [Option.some.injEq] at h
      subst h
      refine ⟨rfl, ?_, ?_, ?_⟩
      · intro hne
        show (if (numValues (colCells t c)).isEmpty then none
          else some (listMean (numValues (colCells t c)))) = _
        rw [if_neg (by simpa using hne)]
        rfl
      · intro v hv
        exact listMin_le hv
      · intro v hv
        exact listMax_ge hv
  · cases h

def tStats : Table :=
  ⟨["Area Type", "2021"],
   [[Cell.text "Region", Cell.num 100], [Cell.text "Region", Cell.num 150]]⟩

theorem claim_C7_witness :
    (⟨some 125, some 100, some 150, 2⟩ : Stats).count =
        (numValues (colCells tStats "2021")).length ∧
      (numValues (colCells tStats "2021") ≠ [] →
        (⟨some 125, some 100, some 150, 2⟩ : Stats).mean =
          some ((numValues (colCells tStats "2021")).sum /
            ((numValues (colCells tStats "2021")).length : ℚ))) ∧
      (∀ v ∈ numValues (colCells tStats "2021"),
        ∃ m, (⟨some 125, some 100, some 150, 2⟩ : Stats).min = some m ∧ m ≤ v) ∧
      (∀ v ∈ numValues (colCells tStats "2021"),
        ∃ M, (⟨some 125, some 100, some 150, 2⟩ : Stats).max = some M ∧ v ≤ M) :=
  claim_C7 tStats "2021" ⟨some 125, some 100, some 150, 2⟩ (by
    have hv : numValues (colCells tStats "2021") = [100, 150] := by decide
    simp only [calculate_stats, hv]
    rw [if_neg (by decide), if_pos (by decide), if_neg (by decide)]
    have hm : listMean [(100 : ℚ), 150] = 125 := by norm_num [listMean]
    rw [hm]
    norm_num
    exact ⟨by decide, by decide⟩)

/-- C9: `filter_data` on an empty table, or on a column absent from the
table, returns the empty table (zero rows) for any requested column and
value; being a total function, it raises nothing. -/
theorem claim_C9 (t : Table) (c : String) (v : PyValue)
    (h : t.isEmptyT = true ∨ c ∉ t.header) :
    filter_data t c v = Table.emptyT ∧ (filter_data t c v).rows.length = 0 := by
  have heq : filter_data t c v = Table.emptyT := by
    unfold filter_data
    rcases h with h | h
    · rw [if_pos h]
    · by_cases he : t.isEmptyT = true
      · rw [if_pos he]
      · rw [if_neg he, if_neg (by simpa using h)]
  exact ⟨heq, by rw [heq]; rfl⟩

theorem claim_C9_witness :
    filter_data Table.emptyT "Area Type" (PyValue.str "Region") = Table.emptyT ∧
      (filter_data Table.emptyT "Area Type" (PyValue.str "Region")).rows.length = 0 :=
  claim_C9 Table.emptyT "Area Type" (PyValue.str "Region") (Or.inl rfl)

/-- C10: on a table with at least one column but zero rows, `filter_data`
returns the zero-row, zero-column empty table for any column and value —
the input's column set is not preserved. -/
theorem claim_C10 (t : Table) (c : String) (v : PyValue)
    (hcols : t.header ≠ []) (hrows : t.rows = []) :
    filter_data t c v = Table.emptyT ∧ (filter_data t c v).header = [] ∧
      (filter_data t c v).rows = [] := by
  have he : t.isEmptyT = true := by simp [Table.isEmptyT, hrows]
  unfold filter_data
  rw [if_pos he]
  exact ⟨rfl, rfl, rfl⟩

theorem claim_C10_witness :
    filter_data ⟨["Area Type"], []⟩ "Area Type" (PyValue.str "Region") =
        Table.emptyT ∧
      (filter_data ⟨["Area Type"], []⟩ "Area Type" (PyValue.str "Region")).header
          = [] ∧
      (filter_data ⟨["Area Type"], []⟩ "Area Type" (PyValue.str "Region")).rows
          = [] :=
  claim_C10 ⟨["Area Type"], []⟩ "Area Type" (PyValue.str "Region")
    (by decide) rfl

/-- C2, amended: for every table with at least one row, every column `C`
present in it and every textual value `v`, `filter_data` returns exactly
the rows whose cell in `C`, stringified and lowercased, equals the
lowercased `v` — in the original order, with all original columns intact.
(For a zero-row table the code returns the zero-column empty table
instead, dropping the column set: see the counterexample and C10.) -/
theorem claim_C2_amended (t : Table) (c : String) (v : String)
    (hrows : t.rows ≠ []) (hc : c ∈ t.header) :
    filter_data t c (PyValue.str v) =
      ⟨t.header,
       t.rows.filter (fun r =>
         (cellToStr (rowCell t.header c r)).toLower == v.toLower)⟩ := by
  have hh : t.header ≠ [] := fun hnil => by rw [hnil] at hc; cases hc
  unfold filter_data
  rw [if_neg (by simp [Table.isEmptyT, hrows, hh]), if_pos (by simpa using hc)]

/-- C2 as frozen is false on a zero-row table: column `"A"` is present,
but the result drops it (zero columns) instead of preserving the original
column set. -/
theorem claim_C2_counterexample :
    "A" ∈ (Table.mk ["A"] []).header ∧
      (filter_data (Table.mk ["A"] []) "A" (PyValue.str "x")).header ≠
        (Table.mk ["A"] []).header := by
  decide

def tAreas : Table :=
  ⟨["Area Name", "Area Type"],
   [[Cell.text "North", Cell.text "Region"],
    [Cell.text "South", Cell.text "Region"],
    [Cell.text "East", Cell.text "LTLA"]]⟩

theorem fillUnknown_num (q : ℚ) : fillUnknown (Cell.num q) = Cell.num q := rfl

theorem fillUnknown_missing : fillUnknown Cell.missing = Cell.text "Unknown" := rfl

theorem cellAt_of_lt {t : Table} {i j : ℕ} (hi : i < t.rows.length)
    (hj : j < (t.rows[i]).length) : cellAt t i j = (t.rows[i])[j] := by
  unfold cellAt
  simp only [List.getD_eq_getElem?_getD, List.getElem?_eq_getElem hi,
    Option.getD_some, List.getElem?_eq_getElem hj]

/-- What one pass of `clean_health_data` does to the cell at `(i, j)` of a
non-empty well-formed table: the numeric fill for column `j`, then the
catch-all fill. -/
theorem cellAt_clean {t : Table} {i j : ℕ} (he : t.isEmptyT = false)
    (hwf : ∀ r ∈ t.rows, r.length = t.header.length)
    (hi : i < t.rows.length) (hj : j < t.header.length) :
    cellAt (clean_health_data t) i j =
      fillUnknown (fillNumericCell (colAt t.rows j) (cellAt t i j)) := by
  have hjr : j < (t.rows[i]).length := by
    rw [hwf (t.rows[i]) (List.getElem_mem hi)]
    exact hj
  rw [clean_eq_of_nonempty he]
  unfold cellAt
  simp only [List.getD_eq_getElem?_getD, List.getElem?_map,
    List.getElem?_eq_getElem hi, Option.map_some', Option.getD_some,
    fillRowNumeric_getElem? t.rows, List.getElem?_eq_getElem hjr,
    Nat.zero_add]

/-- C3: for every well-formed input table, `clean_health_data` returns a
table with no missing cell; each missing cell of a numeric column is
replaced by that column's mean over its non-missing values (by `0` when
the column is entirely missing), and each missing cell of a non-numeric
column by the text `"Unknown"`.  The well-formedness hypotheses are the
data model's invariants: equal row lengths, and (normalized) column names
distinct, so that the source's by-name column walk agrees with the
positional one. -/
theorem claim_C3 (t : Table)
    (hwf : ∀ r ∈ t.rows, r.length = t.header.length)
    (hnodup : (t.header.map normalizeName).Nodup) :
    (∀ r ∈ (clean_health_data t).rows, ∀ c ∈ r, c ≠ Cell.missing) ∧
      (∀ i j, i < t.rows.length → j < t.header.length →
        cellAt t i j = Cell.missing →
        cellAt (clean_health_data t) i j =
          if colIsNumericB (colAt t.rows j) then
            (if numValues (colAt t.rows j) = [] then Cell.num 0
             else Cell.num (listMean (numValues (colAt t.rows j))))
          else Cell.text "Unknown") := by
  constructor
  · cases he : t.isEmptyT with
    | false => exact clean_rows_no_missing he
    | true =>
      rw [clean_of_empty he]
      intro r hr c hc
      rcases Bool.or_eq_true_iff.mp he with hh | hrw
      · have : r.length = 0 := by
          rw [hwf r hr, List.length_eq_zero.mpr (List.isEmpty_iff.mp hh)]
        rw [List.length_eq_zero.mp this] at hc
        cases hc
      · rw [List.isEmpty_iff.mp hrw] at hr
        cases hr
  · intro i j hi hj hmiss
    have he : t.isEmptyT = false := by
      unfold Table.isEmptyT
      rcases List.exists_mem_of_length_pos (Nat.lt_of_le_of_lt (Nat.zero_le _) hi)
        with ⟨r, -⟩
      have hh : t.header ≠ [] := by
        intro hnil
        rw [hnil] at hj
        cases hj
      have hr : t.rows ≠ [] := by
        intro hnil
        rw [hnil] at hi
        cases hi
      simp [hh, hr]
    rw [cellAt_clean he hwf hi hj, hmiss]
    unfold fillNumericCell
    by_cases hnum : colIsNumericB (colAt t.rows j) = true
    · rw [if_pos hnum, if_pos hnum]
      unfold meanOrZero
      by_cases hvs : numValues (colAt t.rows j) = []
      · rw [if_pos (by simpa using hvs), if_pos hvs, fillUnknown_num]
      · rw [if_neg (by simpa using hvs), if_neg hvs, fillUnknown_num]
    · rw [if_neg hnum, if_neg hnum, fillUnknown_missing]

def tFill : Table := ⟨["2015"], [[Cell.num 100], [Cell.missing], [Cell.missing]]⟩

theorem claim_C3_witness :
    (∀ r ∈ (clean_health_data tFill).rows, ∀ c ∈ r, c ≠ Cell.missing) ∧
      (∀ i j, i < tFill.rows.length → j < tFill.header.length →
        cellAt tFill i j = Cell.missing →
        cellAt (clean_health_data tFill) i j =
          if colIsNumericB (colAt tFill.rows j) then
            (if numValues (colAt tFill.rows j) = [] then Cell.num 0
             else Cell.num (listMean (numValues (colAt tFill.rows j))))
          else Cell.text "Unknown") :=
  claim_C3 tFill (by decide) (by decide)

/-- C4, amended: `clean_health_data` is idempotent on every table whose
column names contain no newline character (and whose normalized names stay
pairwise distinct, the embedding's faithfulness domain): after one pass no
missing value remains and the names normalize to themselves, so a second
pass changes nothing.  A newline inside a bracketed annotation defeats
this — see the counterexample — because `.` in the pattern does not cross
newlines while the removal can splice a new matchable pair. -/
theorem claim_C4_amended (t : Table)
    (hnl : ∀ name ∈ t.header, '\n' ∉ name.data)
    (hnodup : (t.header.map normalizeName).Nodup) :
    clean_health_data (clean_health_data t) = clean_health_data t := by
  cases he : t.isEmptyT with
  | true => rw [clean_of_empty he, clean_of_empty he]
  | false =>
    have hu := clean_eq_of_nonempty he
    apply clean_eq_self
    · rw [clean_isEmptyT]
      exact he
    · exact clean_rows_no_missing he
    · intro nm hmem
      rw [hu] at hmem
      simp only [List.mem_map] at hmem
      obtain ⟨a, ha, rfl⟩ := hmem
      exact normalizeName_idem (hnl a ha)

/-- C4 as frozen is false: on the one-column table named `"[x\n[y]z]"`
(one numeric row), the first pass rewrites the name to `"[xz]"` — the
newline blocks the inner match, and removing `"\n[y]"` splices a new
matchable pair — and the second pass then rewrites it to `""`, so
`clean (clean T) ≠ clean T`. -/
theorem claim_C4_counterexample :
    clean_health_data (clean_health_data
        ⟨[String.mk ['[', 'x', '\n', '[', 'y', ']', 'z', ']']], [[Cell.num 1]]⟩) ≠
      clean_health_data
        ⟨[String.mk ['[', 'x', '\n', '[', 'y', ']', 'z', ']']], [[Cell.num 1]]⟩ := by
  decide

def tClean : Table :=
  ⟨["Area Type [Note 3]", "2015"],
   [[Cell.text "LTLA", Cell.num 100], [Cell.text "Region", Cell.missing]]⟩

theorem claim_C4_witness :
    clean_health_data (clean_health_data tClean) = clean_health_data tClean :=
  claim_C4_amended tClean (by decide) (by decide)

/-- C6, amended: on every non-empty table, `clean_health_data` replaces
each column name by the result of removing every substring "optional
whitespace, `[`, any characters (non-greedy), `]`, optional whitespace"
and then trimming surrounding whitespace; a name without brackets is
unchanged up to that trimming; `"Area Type [Note 3]"` becomes exactly
`"Area Type"`.  (On an empty table — zero rows or zero columns — the code
returns the input unchanged and no name is normalized: see the
counterexample.) -/
theorem claim_C6_amended :
    (∀ t : Table, t.isEmptyT = false →
        (clean_health_data t).header = t.header.map normalizeName) ∧
      (∀ s : String, '[' ∉ s.data → ']' ∉ s.data →
        normalizeName s = ⟨trimChars s.data⟩) ∧
      normalizeName "Area Type [Note 3]" = "Area Type" := by
  refine ⟨?_, ?_, ?_⟩
  · intro t he
    rw [clean_eq_of_nonempty he]
  · intro s hlb _
    exact normalizeName_of_no_brackets hlb
  · decide

/-- C6 as frozen is false on a zero-row table: `clean_health_data` hits
its empty-frame early return and leaves the column named
`"Area Type [Note 3]"`, instead of renaming it to `"Area Type"`. -/
theorem claim_C6_counterexample :
    (clean_health_data ⟨["Area Type [Note 3]"], []⟩).header ≠ ["Area Type"] := by
  decide

theorem claim_C6_witness :
    (clean_health_data tClean).header = tClean.header.map normalizeName ∧
      normalizeName "Area Code" = ⟨trimChars "Area Code".data⟩ :=
  ⟨claim_C6_amended.1 tClean rfl,
   claim_C6_amended.2.1 "Area Code" (by decide) (by decide)⟩

/-- C5: `load_csv_data` raises the not-found error exactly when the path
does not reference an existing file; when the file exists but reading or
parsing fails, it reports the failure and returns the empty table (zero
rows, zero columns) instead of propagating the error. -/
theorem claim_C5 (fs : FileSystem) (p : String) :
    ((∃ e, load_csv_data fs p = Except.error e) ↔ fs.pathExists p = false) ∧
      (∀ err, fs.pathExists p = true → fs.parseCSV p = Except.error err →
        load_csv_data fs p = Except.ok Table.emptyT ∧
          Table.emptyT.header = [] ∧ Table.emptyT.rows = []) := by
  constructor
  · cases he : fs.pathExists p with
    | false =>
      refine ⟨fun _ => rfl, fun _ => ?_⟩
      exact ⟨"The file " ++ p ++ " was not found.", by unfold load_csv_data; rw [if_pos he]⟩
    | true =>
      constructor
      · rintro ⟨e, hload⟩
        unfold load_csv_data at hload
        rw [if_neg (by simp [he])] at hload
        rcases hp : fs.parseCSV p with df | msg <;> rw [hp] at hload <;> cases hload
      · intro hfalse
        exact absurd hfalse (by decide)
  · intro err hex hparse
    refine ⟨?_, rfl, rfl⟩
    unfold load_csv_data
    rw [if_neg (by simp [hex]), hparse]

def fsBroken : FileSystem :=
  ⟨fun _ => true, fun _ => Except.error "parse failure"⟩

theorem claim_C5_witness :
    load_csv_data fsBroken "data.csv" = Except.ok Table.emptyT ∧
      Table.emptyT.header = [] ∧ Table.emptyT.rows = [] :=
  (claim_C5 fsBroken "data.csv").2 "parse failure" rfl rfl

/-- C8: saving `T1` and then `T2` under the same name leaves the store
holding exactly `T2` under that name — equal, as a whole store, to having
saved only `T2` (nothing appended or merged, no other name touched) — and
a subsequent fetch returns exactly `T2`. -/
theorem claim_C8 (db : Database) (name : String) (t1 t2 : Table) :
    save_to_database t2 (save_to_database t1 db name) name =
        save_to_database t2 db name ∧
      fetch_data_from_db (save_to_database t2 (save_to_database t1 db name) name)
          name = some t2 := by
  constructor
  · funext n
    unfold save_to_database
    by_cases hn : n = name
    · rw [if_pos hn, if_pos hn]
    · rw [if_neg hn, if_neg hn, if_neg hn]
  · unfold fetch_data_from_db save_to_database
    rw [if_pos rfl]

theorem claim_C2_witness :
    filter_data tAreas "Area Type" (PyValue.str "region") =
      ⟨tAreas.header,
       tAreas.rows.filter (fun r =>
         (cellToStr (rowCell tAreas.header "Area Type" r)).toLower ==
           "region".toLower)⟩ :=
  claim_C2_amended tAreas "Area Type" "region" (by decide) (by decide)

end HealthDash
